import Mathlib

/-!
# Verification of the `LogSearch` commit-history search (`src/server/bleep/src/webserver/answer/git.rs`)

Shallow embedding of `LogSearch::run` and its helpers. The external `gix`
library is modelled at the API surface the code uses:

* the main ancestry walk `head()?.ancestors().all()` is a lazy, newest-first
  sequence of commits that starts with the tip itself; a `GitRepo` carries
  this sequence as the `ancestry` field;
* `commit.ancestors().first_parent_only().all()` is the same queue-driven
  iterator restricted to first parents: the queue is initialised with the
  tip commit, and `next()` pops the front of the queue (yielding it) while
  enqueueing its first parent (`firstParentNext`);
* `gix::date::Time` is a (seconds since epoch, UTC offset in seconds)
  pair; the derived ordering compares the fields lexicographically.
  `Time::new(s, 0)` is built via `try_into::<u32>()`, which panics outside
  `[0, 2^32)` (`parse_date`);
* `Tree::changes().track_path().for_each_to_obtain_tree` enumerates the
  changes between two trees, feeding each to a callback which answers
  `Action::Continue` or `Action::Cancel`; cancelling, or an object-store
  failure while enumerating, surfaces as the `Except`-error component of
  `for_each_changes`.  The stream of changes itself is supplied by the
  repository (`GitRepo.diffOf`), each item either a change or an
  enumeration failure; `treeDiff`/`honestDiff` give the faithful
  error-free stream used by concrete test repositories;
* `gix` message summaries (`MessageRef::summary`): the title is the part of
  the raw message before the first blank line; it is trimmed and its line
  breaks are folded to single spaces (`summaryOf`);
* `chrono`'s `FixedOffset::east_opt(o)` succeeds iff `-86400 < o < 86400`
  (`validOffset`), and `Display` for `DateTime<FixedOffset>` renders
  `YYYY-MM-DD HH:MM:SS +hh:mm` in the local time of that offset
  (`renderTime`, via the standard civil-from-days calendar algorithm).

Rust `unwrap()` panics that abort the search are modelled as `Except`
errors of `run` (`RunError`).  String lowercasing and substring tests are
modelled character-wise (`lowerStr`, `strContains`), which agrees with
Rust's `to_lowercase`/`contains` on ASCII data.
-/

namespace Bleep

/-! ## Character-level string helpers (Rust `to_lowercase` / `contains` / `trim`) -/

/-- ASCII whitespace, as trimmed by `bstr`'s `trim`. -/
def isWs (c : Char) : Bool :=
  c == ' ' || c == '\t' || c == '\n' || c == '\r' || c == '\x0b' || c == '\x0c'

/-- Trim whitespace from both ends of a character list. -/
def trimChars (cs : List Char) : List Char :=
  ((cs.dropWhile isWs).reverse.dropWhile isWs).reverse

/-- Character-wise lowercasing, as Rust `str::to_lowercase` on ASCII. -/
def lowerStr (s : String) : String :=
  String.mk (s.toList.map Char.toLower)

/-- Substring test on character lists: does `needle` occur inside `hay`? -/
def containsSub (hay needle : List Char) : Bool :=
  match hay, needle with
  | _, [] => true
  | [], _ :: _ => false
  | c :: t, n => n.isPrefixOf (c :: t) || containsSub t n

/-- Rust `str::contains`: `hay.contains(needle)`. -/
def strContains (hay needle : String) : Bool :=
  containsSub hay.toList needle.toList

/-! ## Time (`gix::date::Time`) -/

/-- `gix::date::Time`: seconds since the Unix epoch (a `u32` in the gix
version in use) and a UTC offset in seconds. -/
structure GitTime where
  seconds : Nat
  offset : Int
deriving DecidableEq, Repr

/-- The derived (lexicographic) strict order on `gix::date::Time`:
seconds first, then offset.  (The `sign` field of the Rust struct is
determined by the offset in every value this code builds or compares.) -/
def ltTime (a b : GitTime) : Bool :=
  a.seconds < b.seconds || (a.seconds == b.seconds && a.offset < b.offset)

/-- Rust's derived `PartialOrd` on `Option<Time>`: `None` sorts below
`Some`. -/
def ltOptTime : Option GitTime → Option GitTime → Bool
  | none, none => false
  | none, some _ => true
  | some _, none => false
  | some a, some b => ltTime a b

/-! ## Identities, trees, commits -/

/-- A (name, email) pair: `gix::actor::SignatureRef::actor()`. -/
structure Signature where
  name : String
  email : String
deriving DecidableEq, Repr

/-- One entry of a git tree, flattened to its full path (`track_path`)
and the id of the object stored there. -/
structure TreeEntry where
  location : String
  oid : String
deriving DecidableEq, Repr

/-- A git tree, flattened to the full paths it stores. -/
abbrev Tree := List TreeEntry

/-- A changed entry reported by the tree diff; `location` is the full
path (`track_path`). -/
structure Change where
  location : String
deriving DecidableEq, Repr

/-- A commit: hash, author and committer identities, committer time,
raw message bytes, tree, and parent links (a commit object embeds its
parents' ids; here the parents themselves, giving the reachable part of
the graph). -/
inductive Commit where
  | mk (id : String) (author committer : Signature) (time : GitTime)
      (messageRaw : String) (tree : Tree) (parents : List Commit) : Commit

def Commit.id : Commit → String
  | .mk i _ _ _ _ _ _ => i

def Commit.author : Commit → Signature
  | .mk _ a _ _ _ _ _ => a

def Commit.committer : Commit → Signature
  | .mk _ _ c _ _ _ _ => c

def Commit.time : Commit → GitTime
  | .mk _ _ _ t _ _ _ => t

def Commit.messageRaw : Commit → String
  | .mk _ _ _ _ m _ _ => m

def Commit.tree : Commit → Tree
  | .mk _ _ _ _ _ tr _ => tr

def Commit.parents : Commit → List Commit
  | .mk _ _ _ _ _ _ ps => ps

/-- One `next()` step of gix's ancestry iterator in first-parent mode.
The iterator keeps a queue of pending commits, initialised with the
starting tips; `next()` pops the front of the queue, yields it, and
enqueues its first parent.  In particular the first item the iterator
yields is the starting commit itself (which is also why
`head()?.ancestors().all()` lists `HEAD` itself first). -/
def firstParentNext (queue : List Commit) : Option (Commit × List Commit) :=
  match queue with
  | [] => none
  | c :: rest => some (c, rest ++ c.parents.take 1)

/-! ## The tree diff (`gix` diff engine, modelled) -/

/-- Look up the object stored at `loc` in a tree. -/
def lookupTree (t : Tree) (loc : String) : Option String :=
  (t.find? (fun e => e.location == loc)).map TreeEntry.oid

/-- The changed locations between two trees: entries of `cur` that are
absent or different in `par`, then entries of `par` absent from `cur`.
`treeDiff t t = []`, and a diff against the empty tree reports every
entry of the other tree. -/
def treeDiff (cur par : Tree) : List Change :=
  (cur.filter (fun e => lookupTree par e.location ≠ some e.oid)).map
      (fun e => Change.mk e.location)
    ++ (par.filter (fun e => lookupTree cur e.location = none)).map
      (fun e => Change.mk e.location)

/-- An object-store failure while the diff is being enumerated. -/
inductive DiffError where
  | objectMissing : DiffError
deriving DecidableEq, Repr

/-- The error-free diff stream: every change of `treeDiff`, no failures. -/
def honestDiff (cur par : Tree) : List (Except DiffError Change) :=
  (treeDiff cur par).map Except.ok

/-- The `VoidError` of the source: the callback's error type, never
constructed ("never happens"). -/
inductive VoidError : Type

/-- `gix::object::tree::diff::Action`: the callback's verdict. -/
inductive Action where
  | Continue : Action
  | Cancel : Action

/-- How `for_each_to_obtain_tree` ends when it does not run to
completion: the callback cancelled, or enumeration failed. -/
inductive DiffSignal where
  | cancelled : DiffSignal
  | failure (e : DiffError) : DiffSignal
deriving DecidableEq, Repr

/-- The closure passed to `for_each_to_obtain_tree`: sets `decision` and
cancels on the first change whose location contains `f`, continues
otherwise.  Returns the updated flag and the callback's verdict. -/
def diffCallback (f : String) (decision : Bool) (ch : Change) :
    Bool × Except VoidError Action :=
  if strContains ch.location f then (true, Except.ok Action.Cancel)
  else (decision, Except.ok Action.Continue)

/-- `for_each_to_obtain_tree`: feed the stream of changes to the
callback, stopping at the first enumeration failure or `Action::Cancel`.
Returns the final `decision` flag together with the enumeration outcome
(the part the source discards with `_ =`). -/
def for_each_changes (f : String) (decision : Bool) :
    List (Except DiffError Change) → Bool × Except DiffSignal Unit
  | [] => (decision, Except.ok ())
  | Except.error e :: _ => (decision, Except.error (DiffSignal.failure e))
  | Except.ok ch :: rest =>
    match diffCallback f decision ch with
    | (d, Except.ok Action.Cancel) => (d, Except.error DiffSignal.cancelled)
    | (d, Except.ok Action.Continue) => for_each_changes f d rest
    | (_, Except.error e) => nomatch e

/-! ## The repository handle -/

/-- The repository as `run` sees it: the newest-first ancestry of the
current branch tip (the output of `head()?.ancestors().all()`, tip
first), and the diff stream the object store produces for a pair of
trees (each item a change, or a failure to read further). -/
structure GitRepo where
  ancestry : List Commit
  diffOf : Tree → Tree → List (Except DiffError Change)

/-! ## Predicates -/

/-- `check_author`: is `query` (already lowercased) a substring of the
lowercased name or email? -/
def check_author (query : String) (author : Signature) : Bool :=
  strContains (lowerStr author.name) query || strContains (lowerStr author.email) query

/-- The `Some(ref q)` branch of the author criterion: lowercase the
query once, test it against the author and the committer. -/
def authorKeep (q : String) (c : Commit) : Bool :=
  let query := lowerStr q
  check_author query c.author || check_author query c.committer

/-- The `Some(ref q)` branch of the message criterion: lowercased raw
message contains the lowercased query. -/
def messageKeep (q : String) (c : Commit) : Bool :=
  strContains (lowerStr c.messageRaw) (lowerStr q)

/-- The `Some(ref f)` branch of the path criterion.  The "parent" is the
first item of the first-parent ancestry iterator started at `commit` —
the commit itself.  Its tree (or, were the iterator ever empty or
erroring, the empty tree) is diffed against the commit's tree, and only
the `decision` flag of the enumeration is consulted; its
`Except` outcome is dropped (`_ =`). -/
def pathTest (repo : GitRepo) (f : String) (c : Commit) : Bool :=
  let parent : Option Commit :=
    match firstParentNext [c] with
    | some (p, _) => some p
    | none => none
  let parent_tree : Tree :=
    match parent with
    | some p => p.tree
    | none => []
  (for_each_changes f false (repo.diffOf c.tree parent_tree)).1

/-! ## Criteria, results, `run` -/

/-- `LogSearch`: the five optional criteria.  The two dates are
`chrono::DateTime<Utc>` values, carried as their epoch-second
timestamps. -/
structure LogSearch where
  query : Option String
  author : Option String
  start_date : Option Int
  end_date : Option Int
  file : Option String
deriving DecidableEq, Repr

/-- `LogSearchResult`: one output record. -/
structure LogSearchResult where
  hash : String
  author : String
  committer : String
  message : String
  time : String
deriving DecidableEq, Repr

/-- The panics that abort `run`. -/
inductive RunError where
  | panicDateOutOfRange : RunError
  | panicInvalidOffset : RunError
deriving DecidableEq, Repr

/-- `parse_date`: `gix::date::Time::new(ts.try_into().unwrap(), 0)` —
panics unless the timestamp fits a `u32`. -/
def parse_date (ts : Int) : Except RunError GitTime :=
  if 0 ≤ ts ∧ ts < 4294967296 then Except.ok (GitTime.mk ts.toNat 0)
  else Except.error RunError.panicDateOutOfRange

/-- `self.start_date.map(parse_date)`, with the panic propagated. -/
def parseOptDate : Option Int → Except RunError (Option GitTime)
  | none => Except.ok none
  | some ts => (parse_date ts).map some

/-- The range-ordering step: `if end_date < start_date { swap }`,
on `Option<Time>` with Rust's derived ordering. -/
def orderedDates (sd ed : Option GitTime) : Option GitTime × Option GitTime :=
  if ltOptTime ed sd then (ed, sd) else (sd, ed)

/-- The `skip_while` predicate: with an end date, the commit is still
"too new" while its time is strictly greater than it; without one,
nothing is skipped. -/
def tooNew (ed : Option GitTime) (c : Commit) : Bool :=
  match ed with
  | some d => ltTime d c.time
  | none => false

/-- The `take_while` predicate: with a start date, continue while the
commit's time is strictly greater than it; without one, always. -/
def stillInRange (sd : Option GitTime) (c : Commit) : Bool :=
  match sd with
  | some d => ltTime d c.time
  | none => true

/-- The date stage of the pipeline: `skip_while(time > end_date)` then
`take_while(time > start_date)` over the newest-first sequence. -/
def filterByDates (sd ed : Option GitTime) (l : List Commit) : List Commit :=
  (l.dropWhile (tooNew ed)).takeWhile (stillInRange sd)

/-- Left-pad to two digits. -/
def pad2 (n : Nat) : String :=
  if n < 10 then "0" ++ toString n else toString n

/-- Left-pad to four digits. -/
def pad4 (n : Nat) : String :=
  if n < 10 then "000" ++ toString n
  else if n < 100 then "00" ++ toString n
  else if n < 1000 then "0" ++ toString n
  else toString n

/-- Days since 1970-01-01 to a civil (year, month, day), by the
standard era-based calendar algorithm. -/
def civilFromDays (days : Int) : Int × Nat × Nat :=
  let z := days + 719468
  let era := z.ediv 146097
  let doe := (z.emod 146097).toNat
  let yoe := (doe - doe / 1460 + doe / 36524 - doe / 146096) / 365
  let y := (yoe : Int) + era * 400
  let doy := doe - (365 * yoe + yoe / 4 - yoe / 100)
  let mp := (5 * doy + 2) / 153
  let d := doy - (153 * mp + 2) / 5 + 1
  let m := if mp < 10 then mp + 3 else mp - 9
  (if m ≤ 2 then y + 1 else y, m, d)

/-- `chrono` rendering of the commit's instant in the fixed offset built
from the commit's own recorded offset:
`FixedOffset::east(offset).timestamp(seconds, 0).to_string()`, i.e.
`YYYY-MM-DD HH:MM:SS +hh:mm` of the offset-local time. -/
def renderTime (t : GitTime) : String :=
  let localSecs : Int := (t.seconds : Int) + t.offset
  let days := localSecs.ediv 86400
  let sod := (localSecs.emod 86400).toNat
  let ymd := civilFromDays days
  let sign := if t.offset < 0 then "-" else "+"
  let offAbs := t.offset.natAbs
  pad4 ymd.1.toNat ++ "-" ++ pad2 ymd.2.1 ++ "-" ++ pad2 ymd.2.2 ++ " " ++
    pad2 (sod / 3600) ++ ":" ++ pad2 (sod % 3600 / 60) ++ ":" ++ pad2 (sod % 60) ++ " " ++
    sign ++ pad2 (offAbs / 3600) ++ ":" ++ pad2 (offAbs % 3600 / 60)

/-- The title of a raw commit message: everything before the first blank
line. -/
def splitTitle : List Char → List Char
  | [] => []
  | '\n' :: '\n' :: _ => []
  | c :: rest => c :: splitTitle rest

/-- Split a character list at newlines. -/
def splitLinesAux (acc : List Char) : List Char → List (List Char)
  | [] => [acc.reverse]
  | '\n' :: rest => acc.reverse :: splitLinesAux [] rest
  | ch :: rest => splitLinesAux (ch :: acc) rest

/-- `gix` `MessageRef::summary` (external, modelled at its contract):
the trimmed title, with each line's trailing whitespace dropped and the
line breaks folded to single spaces. -/
def summaryOf (msg : String) : String :=
  let title := trimChars (splitTitle msg.toList)
  let pieces := (splitLinesAux [] title).map (fun l => (l.reverse.dropWhile isWs).reverse)
  String.mk (List.intercalate [' '] pieces)

/-- `format!("{name} <{email}>")`. -/
def to_author_string (s : Signature) : String :=
  s.name ++ " <" ++ s.email ++ ">"

/-- `chrono::FixedOffset::east_opt` succeeds iff the offset is strictly
between -86400 and 86400 seconds. -/
def validOffset (o : Int) : Bool :=
  -86400 < o && o < 86400

/-- The `LogSearchResult` built for a kept commit. -/
def mkResult (c : Commit) : LogSearchResult :=
  LogSearchResult.mk c.id (to_author_string c.author) (to_author_string c.committer)
    (summaryOf c.messageRaw) (renderTime c.time)

/-- Building the record, with the `east_opt(..).unwrap()` panic on an
out-of-range offset. -/
def resultOf (c : Commit) : Except RunError LogSearchResult :=
  if validOffset c.time.offset then Except.ok (mkResult c)
  else Except.error RunError.panicInvalidOffset

/-- The `filter_map` body: the `keep` decision by sequential overwrite —
author criterion, then query criterion, then path criterion, each
present criterion replacing the value so far. -/
def decisionFor (s : LogSearch) (repo : GitRepo) (c : Commit) : Bool :=
  let decision0 :=
    match s.author with
    | none => true
    | some q => authorKeep q c
  let decision1 :=
    match s.query with
    | none => decision0
    | some q => messageKeep q c
  match s.file with
  | none => decision1
  | some f => pathTest repo f c

/-- The `filter_map` + `collect` over the date-filtered sequence:
keep the records of commits whose decision is true, aborting at the
first formatting panic. -/
def runFiltered (s : LogSearch) (repo : GitRepo) :
    List Commit → Except RunError (List LogSearchResult)
  | [] => Except.ok []
  | c :: cs =>
    if decisionFor s repo c then
      match resultOf c with
      | Except.error e => Except.error e
      | Except.ok r =>
        match runFiltered s repo cs with
        | Except.error e => Except.error e
        | Except.ok rest => Except.ok (r :: rest)
    else runFiltered s repo cs

/-- `LogSearch::run`: parse the optional dates, order the range, apply
the date stage to the ancestry, then filter and format. -/
def run (s : LogSearch) (repo : GitRepo) : Except RunError (List LogSearchResult) :=
  match parseOptDate s.start_date with
  | Except.error e => Except.error e
  | Except.ok start0 =>
    match parseOptDate s.end_date with
    | Except.error e => Except.error e
    | Except.ok end0 =>
      let p := orderedDates start0 end0
      runFiltered s repo (filterByDates p.1 p.2 repo.ancestry)

/-! ## Decidable equality for `Except` results -/

instance {ε α : Type} [DecidableEq ε] [DecidableEq α] : DecidableEq (Except ε α) := fun a b =>
  match a, b with
  | Except.ok x, Except.ok y =>
    if h : x = y then Decidable.isTrue (by rw [h])
    else Decidable.isFalse (fun hc => h (by cases hc; rfl))
  | Except.ok _, Except.error _ => Decidable.isFalse (fun hc => Except.noConfusion hc)
  | Except.error _, Except.ok _ => Decidable.isFalse (fun hc => Except.noConfusion hc)
  | Except.error x, Except.error y =>
    if h : x = y then Decidable.isTrue (by rw [h])
    else Decidable.isFalse (fun hc => h (by cases hc; rfl))

/-! ## Concrete test repositories -/

def aliceSig : Signature := ⟨"Alice", "a@x.com"⟩

def bobSig : Signature := ⟨"Bob", "b@x.com"⟩

/-- A commit authored by Alice and committed by Bob, with a two-paragraph
message. -/
def aliceBobCommit : Commit :=
  Commit.mk "abc123" aliceSig bobSig ⟨0, 3600⟩ "Fix bug\n\nDetails..." [⟨"README.md", "o1"⟩] []

/-- A repository with no commits at all (predicate fixtures only). -/
def emptyRepo : GitRepo := ⟨[], fun _ _ => []⟩

def newCommit : Commit := Commit.mk "new01" aliceSig aliceSig ⟨100, 0⟩ "new work" [] []

def oldCommit : Commit := Commit.mk "old01" aliceSig aliceSig ⟨50, 0⟩ "old work" [] []

/-- Two commits, newest first, with strictly decreasing timestamps. -/
def twoCommitRepo : GitRepo := ⟨[newCommit, oldCommit], honestDiff⟩

/-- All five criteria absent. -/
def emptySearch : LogSearch := ⟨none, none, none, none, none⟩

/-- A parentless commit whose tree holds a single `README.md` entry. -/
def rootCommit : Commit :=
  Commit.mk "r001" aliceSig aliceSig ⟨0, 0⟩ "init" [⟨"README.md", "o1"⟩] []

def rootRepo : GitRepo := ⟨[rootCommit], honestDiff⟩

def plainCommit : Commit :=
  Commit.mk "c3c01" aliceSig aliceSig ⟨10, 0⟩ "work" [⟨"src/main.rs", "o2"⟩] []

/-- A repository whose object store fails as soon as any diff is
enumerated. -/
def erroringRepo : GitRepo := ⟨[plainCommit], fun _ _ => [Except.error DiffError.objectMissing]⟩

/-! ## Helper lemmas -/

theorem parse_date_error {ts : Int} {e : RunError} (h : parse_date ts = Except.error e) :
    e = RunError.panicDateOutOfRange := by
  unfold parse_date at h
  split at h
  · exact absurd h (by simp)
  · cases h; rfl

theorem ltTime_asymm {a b : GitTime} (h : ltTime a b = true) : ltTime b a = false := by
  cases a with | mk as ao =>
  cases b with | mk bs bo =>
  simp only [ltTime] at h ⊢
  simp only [Bool.or_eq_true, Bool.and_eq_true, decide_eq_true_eq, beq_iff_eq] at h
  simp only [Bool.or_eq_false_iff, Bool.and_eq_false_iff, decide_eq_false_iff_not,
    beq_eq_false_iff_ne, ne_eq]
  omega

theorem ltTime_conn {a b : GitTime} (h1 : ltTime a b = false) (h2 : ltTime b a = false) :
    a = b := by
  cases a with | mk as ao =>
  cases b with | mk bs bo =>
  simp only [ltTime, Bool.or_eq_false_iff, Bool.and_eq_false_iff, decide_eq_false_iff_not,
    beq_eq_false_iff_ne, ne_eq] at h1 h2
  simp only [GitTime.mk.injEq]
  omega

theorem orderedDates_comm (a b : Option GitTime) : orderedDates a b = orderedDates b a := by
  cases a with
  | none =>
    cases b with
    | none => rfl
    | some y => rfl
  | some x =>
    cases b with
    | none => rfl
    | some y =>
      by_cases hxy : ltTime y x = true
      · have hyx := ltTime_asymm hxy
        simp [orderedDates, ltOptTime, hxy, hyx]
      · have hxy' : ltTime y x = false := by simpa using hxy
        by_cases hyx : ltTime x y = true
        · have h2 := ltTime_asymm hyx
          simp [orderedDates, ltOptTime, hyx, h2]
        · have hyx' : ltTime x y = false := by simpa using hyx
          have heq := ltTime_conn hxy' hyx'
          subst heq
          rfl

theorem takeWhile_stillInRange_none (l : List Commit) :
    l.takeWhile (stillInRange none) = l := by
  induction l with
  | nil => rfl
  | cons c cs ih =>
    show c :: cs.takeWhile (stillInRange none) = c :: cs
    rw [ih]

theorem filterByDates_none_none (l : List Commit) : filterByDates none none l = l := by
  unfold filterByDates
  have h1 : l.dropWhile (tooNew none) = l := by
    cases l with
    | nil => rfl
    | cons c cs => rfl
  rw [h1, takeWhile_stillInRange_none]

theorem filterByDates_sublist (sd ed : Option GitTime) (l : List Commit) :
    List.Sublist (filterByDates sd ed l) l :=
  (List.takeWhile_sublist _).trans (List.dropWhile_sublist _)

theorem resultOf_ok {c : Commit} {r : LogSearchResult} (h : resultOf c = Except.ok r) :
    r = mkResult c := by
  unfold resultOf at h
  by_cases hv : validOffset (Commit.time c).offset = true
  · rw [if_pos hv] at h
    cases h
    rfl
  · rw [if_neg hv] at h
    cases h

theorem runFiltered_total {s : LogSearch} {repo : GitRepo} {l : List Commit}
    (h : ∀ c ∈ l, validOffset (Commit.time c).offset = true) :
    runFiltered s repo l =
      Except.ok ((l.filter (fun c => decisionFor s repo c)).map mkResult) := by
  induction l with
  | nil => rfl
  | cons c cs ih =>
    have hc := h c (List.mem_cons_self c cs)
    have hcs : ∀ x ∈ cs, validOffset (Commit.time x).offset = true :=
      fun x hx => h x (List.mem_cons_of_mem _ hx)
    have hr : resultOf c = Except.ok (mkResult c) := by
      unfold resultOf
      rw [if_pos hc]
    unfold runFiltered
    by_cases hd : decisionFor s repo c = true
    · rw [if_pos hd, hr, ih hcs]
      simp [List.filter_cons, hd]
    · rw [if_neg hd, ih hcs]
      simp [List.filter_cons, hd]

theorem runFiltered_ok_shape {s : LogSearch} {repo : GitRepo} {l : List Commit}
    {rs : List LogSearchResult} (h : runFiltered s repo l = Except.ok rs) :
    rs = (l.filter (fun c => decisionFor s repo c)).map mkResult := by
  induction l generalizing rs with
  | nil =>
    unfold runFiltered at h
    cases h
    rfl
  | cons c cs ih =>
    unfold runFiltered at h
    by_cases hd : decisionFor s repo c = true
    · rw [if_pos hd] at h
      cases hres : resultOf c with
      | error e => rw [hres] at h; cases h
      | ok r0 =>
        rw [hres] at h
        cases hrest : runFiltered s repo cs with
        | error e => rw [hrest] at h; cases h
        | ok rest =>
          rw [hrest] at h
          cases h
          have hr0 := resultOf_ok hres
          subst hr0
          simp [List.filter_cons, hd, ih hrest]
    · rw [if_neg hd] at h
      simp [List.filter_cons, hd, ih h]

theorem runFiltered_mem {s : LogSearch} {repo : GitRepo} {l : List Commit}
    {rs : List LogSearchResult} (h : runFiltered s repo l = Except.ok rs) :
    ∀ r ∈ rs, ∃ c, c ∈ l ∧ resultOf c = Except.ok r := by
  induction l generalizing rs with
  | nil =>
    unfold runFiltered at h
    cases h
    intro r hr
    cases hr
  | cons c cs ih =>
    unfold runFiltered at h
    by_cases hd : decisionFor s repo c = true
    · rw [if_pos hd] at h
      cases hres : resultOf c with
      | error e => rw [hres] at h; cases h
      | ok r0 =>
        rw [hres] at h
        cases hrest : runFiltered s repo cs with
        | error e => rw [hrest] at h; cases h
        | ok rest =>
          rw [hrest] at h
          cases h
          intro r hr
          rcases List.mem_cons.mp hr with h1 | h2
          · subst h1
            exact ⟨c, List.mem_cons_self c cs, hres⟩
          · obtain ⟨c', hc', hres'⟩ := ih hrest r h2
            exact ⟨c', List.mem_cons_of_mem _ hc', hres'⟩
    · rw [if_neg hd] at h
      intro r hr
      obtain ⟨c', hc', hres'⟩ := ih h r hr
      exact ⟨c', List.mem_cons_of_mem _ hc', hres'⟩

theorem runFiltered_dates_irrelevant (q a f : Option String) (x y x' y' : Option Int)
    (repo : GitRepo) (l : List Commit) :
    runFiltered (LogSearch.mk q a x y f) repo l =
      runFiltered (LogSearch.mk q a x' y' f) repo l := by
  induction l with
  | nil => rfl
  | cons c cs ih =>
    unfold runFiltered
    have hd : decisionFor (LogSearch.mk q a x y f) repo c =
        decisionFor (LogSearch.mk q a x' y' f) repo c := rfl
    rw [hd, ih]

theorem run_ok_inv {s : LogSearch} {repo : GitRepo} {rs : List LogSearchResult}
    (h : run s repo = Except.ok rs) :
    ∃ sd ed, runFiltered s repo (filterByDates sd ed repo.ancestry) = Except.ok rs := by
  unfold run at h
  cases h1 : parseOptDate s.start_date with
  | error e => rw [h1] at h; cases h
  | ok start0 =>
    rw [h1] at h
    cases h2 : parseOptDate s.end_date with
    | error e => rw [h2] at h; cases h
    | ok end0 =>
      rw [h2] at h
      exact ⟨(orderedDates start0 end0).1, (orderedDates start0 end0).2, h⟩

/-! ## The claims -/

/-- C1: for every commit surviving the date filter, the keep decision is
computed by sequential overwrite in the fixed order author, query, path:
the net decision is that of the last criterion present (path over query
over author), earlier results being discarded; and concretely, with
`author = "alice"` (which matches) and `query = "nonexistent-token"`
(which does not), the commit is not matched. -/
theorem c1_sequential_overwrite (s : LogSearch) (repo : GitRepo) (c : Commit) :
    decisionFor s repo c =
      (match s.file with
       | some f => pathTest repo f c
       | none =>
         match s.query with
         | some q => messageKeep q c
         | none =>
           match s.author with
           | some q => authorKeep q c
           | none => true) ∧
    decisionFor (LogSearch.mk (some "nonexistent-token") (some "alice") none none none)
        emptyRepo aliceBobCommit = false ∧
    authorKeep "alice" aliceBobCommit = true := by
  refine ⟨?_, by decide, by decide⟩
  obtain ⟨q, a, sd, ed, f⟩ := s
  cases f <;> cases q <;> cases a <;> rfl

/-- C2: the claim says that with `start_date` present and `end_date`
absent no leading commits are skipped, and exactly the prefix of commits
with time strictly above `start_date` is retained.  The code instead
compares the two `Option`s, where `None < Some`, and swaps them, turning
the start bound into an end bound: on a repository with commits at
times 100 and 50 (newest first, strictly decreasing, so the claim's
monotonicity assumption holds) and `start_date = 60`, the new commit —
the one commit with time > 60, which the claim says is the entire
result — is skipped, and the old commit is returned instead. -/
theorem c2_start_only_swaps_bounds :
    ltTime (GitTime.mk 60 0) (Commit.time newCommit) = true ∧
    ltTime (GitTime.mk 60 0) (Commit.time oldCommit) = false ∧
    run (LogSearch.mk none none (some 60) none none) twoCommitRepo =
      Except.ok [mkResult oldCommit] := by
  exact ⟨by decide, by decide, by decide⟩

/-- C3, counterexample: an error produced while enumerating the tree
diff does not abort the search.  On a repository whose object store
fails on the very first diff item, a search with a path criterion
returns `Except.ok []` — the error is discarded (`_ =`), the commit is
merely dropped, and the caller sees a successful, silently empty
result. -/
theorem c3_counterexample_diff_error_not_fatal :
    GitRepo.diffOf erroringRepo (Commit.tree plainCommit) (Commit.tree plainCommit) =
      [Except.error DiffError.objectMissing] ∧
    run (LogSearch.mk none none none none (some "main")) erroringRepo = Except.ok [] := by
  exact ⟨rfl, by decide⟩

/-- C3, amended: the outcome of the diff enumeration — cancellation
signal and genuine errors alike — is discarded; only the decision flag
recorded by the callback is consulted.  Consequently the search never
aborts because of the diff: with no date bounds and well-formed commit
offsets, `run` succeeds for every criteria set and every diff stream
the repository produces, returning exactly the decision-filtered
ancestry. -/
theorem c3_diff_outcome_discarded (s : LogSearch) (repo : GitRepo)
    (hs : s.start_date = none) (he : s.end_date = none)
    (hoff : ∀ c ∈ repo.ancestry, validOffset (Commit.time c).offset = true) :
    run s repo =
      Except.ok ((repo.ancestry.filter (fun c => decisionFor s repo c)).map mkResult) := by
  unfold run
  rw [hs, he]
  show runFiltered s repo (filterByDates none none repo.ancestry) = _
  rw [filterByDates_none_none]
  exact runFiltered_total hoff

theorem c3_diff_outcome_discarded_witness :
    run (LogSearch.mk none none none none (some "main")) erroringRepo =
      Except.ok ((erroringRepo.ancestry.filter
        (fun c => decisionFor (LogSearch.mk none none none none (some "main")) erroringRepo c)).map
          mkResult) :=
  c3_diff_outcome_discarded (LogSearch.mk none none none none (some "main")) erroringRepo
    rfl rfl (by decide)

/-- C4: the claim says the commit's tree is diffed against its first
parent's tree, with the empty tree as the baseline for a parentless
commit, so that every entry of a root commit's tree counts as changed.
In the code, the "parent" is the first item of
`ancestors().first_parent_only().all()` — and that iterator yields the
starting commit itself first.  So the baseline is the commit's own tree,
the diff is empty, and the root commit with an entry matching the
criterion is not matched: the diff against the claimed empty baseline
would contain `README.md`, yet the search returns no results. -/
theorem c4_parent_is_the_commit_itself :
    firstParentNext [rootCommit] = some (rootCommit, []) ∧
    treeDiff (Commit.tree rootCommit) ([] : Tree) = [Change.mk "README.md"] ∧
    treeDiff (Commit.tree rootCommit) (Commit.tree rootCommit) = [] ∧
    run (LogSearch.mk none none none none (some "README")) rootRepo = Except.ok [] := by
  exact ⟨rfl, by decide, by decide, by decide⟩

/-- C5: exchanging the two supplied dates does not change the result:
the range is re-ordered before use, so `run` with `start = a, end = b`
equals `run` with `start = b, end = a`, for every pair of timestamps
(including out-of-`u32`-range ones, where both runs panic alike). -/
theorem c5_date_order_independent (q a f : Option String) (repo : GitRepo) (ds de : Int) :
    run (LogSearch.mk q a (some ds) (some de) f) repo =
      run (LogSearch.mk q a (some de) (some ds) f) repo := by
  unfold run
  cases h1 : parse_date ds with
  | error e1 =>
    cases h2 : parse_date de with
    | error e2 =>
      have e1' := parse_date_error h1
      have e2' := parse_date_error h2
      subst e1'
      subst e2'
      simp [parseOptDate, h1, h2, Except.map]
    | ok t2 => simp [parseOptDate, h1, h2, Except.map]
  | ok t1 =>
    cases h2 : parse_date de with
    | error e2 => simp [parseOptDate, h1, h2, Except.map]
    | ok t2 =>
      simp only [parseOptDate, h1, h2, Except.map]
      rw [orderedDates_comm (some t1) (some t2)]
      exact runFiltered_dates_irrelevant q a f (some ds) (some de) (some de) (some ds) repo _

/-- C6: with all five criteria absent, the result is the full ancestry
of the current branch tip, one record per commit, in traversal order,
nothing filtered out. -/
theorem c6_no_criteria_full_ancestry (repo : GitRepo)
    (hoff : ∀ c ∈ repo.ancestry, validOffset (Commit.time c).offset = true) :
    run emptySearch repo = Except.ok (repo.ancestry.map mkResult) := by
  show runFiltered emptySearch repo
      (filterByDates (orderedDates none none).1 (orderedDates none none).2 repo.ancestry) = _
  show runFiltered emptySearch repo (filterByDates none none repo.ancestry) = _
  rw [filterByDates_none_none, @runFiltered_total emptySearch repo repo.ancestry hoff]
  have hall : ∀ c ∈ repo.ancestry, decisionFor emptySearch repo c = true := fun c _ => rfl
  rw [List.filter_eq_self.mpr hall]

theorem c6_no_criteria_full_ancestry_witness :
    run emptySearch twoCommitRepo = Except.ok (twoCommitRepo.ancestry.map mkResult) :=
  c6_no_criteria_full_ancestry twoCommitRepo (by decide)

/-- C7: the author test lowercases the criterion once and holds exactly
when it is a substring of the lowercased author name, author email,
committer name or committer email; and concretely, the commit authored
by `Alice <a@x.com>` and committed by `Bob <b@x.com>` matches the
author criterion "alice" and not "carol". -/
theorem c7_author_test (q : String) (c : Commit) :
    authorKeep q c =
      (strContains (lowerStr (Commit.author c).name) (lowerStr q) ||
       strContains (lowerStr (Commit.author c).email) (lowerStr q) ||
       strContains (lowerStr (Commit.committer c).name) (lowerStr q) ||
       strContains (lowerStr (Commit.committer c).email) (lowerStr q)) ∧
    decisionFor (LogSearch.mk none (some "alice") none none none) emptyRepo aliceBobCommit
      = true ∧
    decisionFor (LogSearch.mk none (some "carol") none none none) emptyRepo aliceBobCommit
      = false := by
  refine ⟨?_, by decide, by decide⟩
  simp [authorKeep, check_author, Bool.or_assoc]

/-- C8: every record of a successful search comes from a commit of the
traversed ancestry and carries that commit's hash, its author and
committer as "name email" pairs, its message's summary, and its
timestamp rendered in the commit's own recorded offset; concretely the
raw message with body yields just "Fix bug", and epoch second 0 with
offset +3600 renders at the fixed +01:00 offset. -/
theorem c8_result_fields (s : LogSearch) (repo : GitRepo) (rs : List LogSearchResult)
    (h : run s repo = Except.ok rs) (r : LogSearchResult) (hr : r ∈ rs) :
    (∃ c, c ∈ repo.ancestry ∧
      r.hash = Commit.id c ∧
      r.author = to_author_string (Commit.author c) ∧
      r.committer = to_author_string (Commit.committer c) ∧
      r.message = summaryOf (Commit.messageRaw c) ∧
      r.time = renderTime (Commit.time c)) ∧
    summaryOf "Fix bug\n\nDetails..." = "Fix bug" ∧
    renderTime (GitTime.mk 0 3600) = "1970-01-01 01:00:00 +01:00" := by
  refine ⟨?_, by decide, by decide⟩
  obtain ⟨sd, ed, hrf⟩ := run_ok_inv h
  obtain ⟨c, hc, hres⟩ := runFiltered_mem hrf r hr
  have hcm : c ∈ repo.ancestry := (filterByDates_sublist sd ed repo.ancestry).subset hc
  have hmk := resultOf_ok hres
  subst hmk
  exact ⟨c, hcm, rfl, rfl, rfl, rfl, rfl⟩

theorem c8_result_fields_witness :
    (∃ c, c ∈ twoCommitRepo.ancestry ∧
      (mkResult newCommit).hash = Commit.id c ∧
      (mkResult newCommit).author = to_author_string (Commit.author c) ∧
      (mkResult newCommit).committer = to_author_string (Commit.committer c) ∧
      (mkResult newCommit).message = summaryOf (Commit.messageRaw c) ∧
      (mkResult newCommit).time = renderTime (Commit.time c)) ∧
    summaryOf "Fix bug\n\nDetails..." = "Fix bug" ∧
    renderTime (GitTime.mk 0 3600) = "1970-01-01 01:00:00 +01:00" :=
  c8_result_fields emptySearch twoCommitRepo [mkResult newCommit, mkResult oldCommit]
    (by decide) (mkResult newCommit) (by decide)

/-- C9: the output of a successful search lists the surviving commits'
records in the order the ancestry traversal visited them: the output is
the image of a sublist of the traversal sequence, with no re-sorting. -/
theorem c9_output_preserves_traversal_order (s : LogSearch) (repo : GitRepo)
    (rs : List LogSearchResult) (h : run s repo = Except.ok rs) :
    ∃ cs : List Commit, List.Sublist cs repo.ancestry ∧ rs = cs.map mkResult := by
  obtain ⟨sd, ed, hrf⟩ := run_ok_inv h
  exact ⟨(filterByDates sd ed repo.ancestry).filter (fun c => decisionFor s repo c),
    (List.filter_sublist _).trans (filterByDates_sublist sd ed repo.ancestry),
    runFiltered_ok_shape hrf⟩

theorem c9_output_preserves_traversal_order_witness :
    ∃ cs : List Commit, List.Sublist cs twoCommitRepo.ancestry ∧
      [mkResult newCommit, mkResult oldCommit] = cs.map mkResult :=
  c9_output_preserves_traversal_order emptySearch twoCommitRepo
    [mkResult newCommit, mkResult oldCommit] (by decide)

/-- C10: the search is deterministic: two runs over the same repository
state with the same criteria produce the same output. -/
theorem c10_deterministic (s1 s2 : LogSearch) (r1 r2 : GitRepo)
    (h1 : s1 = s2) (h2 : r1 = r2) : run s1 r1 = run s2 r2 := by
  rw [h1, h2]

theorem c10_deterministic_witness :
    run emptySearch twoCommitRepo = run emptySearch twoCommitRepo :=
  c10_deterministic emptySearch emptySearch twoCommitRepo twoCommitRepo rfl rfl

end Bleep
